import Mathlib

/-!
# Verification of the pull-request labeler (src/main.ts)

A shallow embedding of the labeler's core logic and theorems about it.

The program reads a YAML configuration mapping label names to glob rules,
fetches the changed files of a pull request, evaluates each rule against the
changed files, and adds the matching labels to the pull request.

Modelling decisions, each justified against the TypeScript source:
* YAML values loaded by `yaml.safeLoad` are modelled by the inductive `Yaml`
  (strings, numbers, booleans, null, sequences, mappings).  Mappings carry
  their keys in insertion order, as JavaScript objects do for string keys.
* The JavaScript expression `configObject[label][temp]["on"]` evaluates to the
  value of the key `"on"` when the element is an object, and to `undefined`
  for numbers, booleans and other arrays; accessing a property of `null`
  throws.  Both `undefined` and the throw lead to an error escaping
  `getLabelGlobMapFromObject`, so `getOn` returns `none` in all of these
  cases and the parser maps `none` to an error.
* `new Minimatch(glob).match(path)` is a call into the external `minimatch`
  library; it is modelled by an arbitrary function parameter
  `matcher : String → String → Bool`, so every theorem below holds for the
  real glob semantics in particular.
* The JavaScript `Map` built by repeated `set` calls is modelled by an
  association list together with `mapSet`, which overwrites the value of an
  existing key in place (preserving insertion order) and appends a new key.
* `status.includes(changedFile.status)` compares with `===`: a string on the
  status list equals the file's status exactly when the characters agree, and
  a non-string element is never `===` to a string.  `statusIncludes` mirrors
  this.
* The orchestrator `run` is modelled as a pure function from the event
  context (optional pull-request number), the collaborator's responses (the
  changed files and the decoded configuration) to the list of collaborator
  calls it issues and a success flag.
-/

/-- A YAML value as produced by `yaml.safeLoad`.  `obj` keeps key order. -/
inductive Yaml where
  | str : String → Yaml
  | num : Int → Yaml
  | bool : Bool → Yaml
  | null : Yaml
  | arr : List Yaml → Yaml
  | obj : List (String × Yaml) → Yaml

/-- A changed file of the pull request: `interface File` of the source. -/
structure File where
  filename : String
  status : String

/-- `const ALL_STATUS: string[] = ["added", "modified", "removed"]`. -/
def ALL_STATUS : List Yaml := [Yaml.str "added", Yaml.str "modified", Yaml.str "removed"]

/-- The JavaScript property access `el["on"]`: the value of key `"on"` when
`el` is an object, otherwise `undefined` (or a throw for `null`), both of
which send the parser into its error branch. -/
def getOn : Yaml → Option Yaml
  | Yaml.obj kvs => (kvs.find? (fun kv => kv.1 == "on")).map (fun kv => kv.2)
  | _ => none

/-- The inner loop of `getLabelGlobMapFromObject` (lines 119–131 of
src/main.ts) over the elements of a label's array value, carrying the
accumulated `globs` and the current `status`:
a string element is pushed onto `globs`; an element whose `"on"` property is
a string replaces `status` with the one-element list; an element whose
`"on"` property is an array replaces `status` with that array verbatim;
anything else throws. -/
def parseArrayElems : List Yaml → List String → List Yaml → Except String (List String × List Yaml)
  | [], globs, status => Except.ok (globs, status)
  | e :: rest, globs, status =>
    match e, getOn e with
    | Yaml.str s, _ => parseArrayElems rest (globs ++ [s]) status
    | _, some (Yaml.str s) => parseArrayElems rest globs [Yaml.str s]
    | _, some (Yaml.arr a) => parseArrayElems rest globs a
    | _, _ => Except.error "found unexpected ..."

/-- One entry of the top-level loop of `getLabelGlobMapFromObject`: a string
value becomes the rule `([value], ALL_STATUS)`; an array value is folded by
`parseArrayElems` starting from `([], ALL_STATUS)`; any other value throws
the error that names the label. -/
def parseLabelValue (label : String) : Yaml → Except String (List String × List Yaml)
  | Yaml.str s => Except.ok ([s], ALL_STATUS)
  | Yaml.arr elems => parseArrayElems elems [] ALL_STATUS
  | _ => Except.error ("found unexpected type for label " ++ label ++ " (should be string or array of globs)")

/-- `Map.set`: overwrite the value of an existing key in place, otherwise
append the new entry, as JavaScript `Map` insertion order prescribes. -/
def mapSet {α : Type} (m : List (String × α)) (k : String) (v : α) : List (String × α) :=
  if m.any (fun q => q.1 == k) then m.map (fun q => if q.1 == k then (k, v) else q)
  else m ++ [(k, v)]

/-- The top-level loop of `getLabelGlobMapFromObject`, threading the `Map`
being built; the first malformed entry throws. -/
def getLabelGlobMapGo : List (String × Yaml) → List (String × (List String × List Yaml)) →
    Except String (List (String × (List String × List Yaml)))
  | [], acc => Except.ok acc
  | (label, v) :: rest, acc =>
    match parseLabelValue label v with
    | Except.ok r => getLabelGlobMapGo rest (mapSet acc label r)
    | Except.error e => Except.error e

/-- `getLabelGlobMapFromObject` (lines 111–141 of src/main.ts): transform the
decoded configuration into the map from label to `(globs, status)`. -/
def getLabelGlobMapFromObject (configObject : List (String × Yaml)) :
    Except String (List (String × (List String × List Yaml))) :=
  getLabelGlobMapGo configObject []

/-- `status.includes(changedFile.status)` under JavaScript `===`: a string
element matches by content, a non-string element never matches a string. -/
def statusIncludes (status : List Yaml) (s : String) : Bool :=
  status.any (fun y => match y with | Yaml.str t => t == s | _ => false)

/-- `checkGlobs` (lines 143–163 of src/main.ts): some glob matches some
changed file whose status is on the status list.  The minimatch call
`new Minimatch(glob).match(filename)` is the parameter `matcher`. -/
def checkGlobs (matcher : String → String → Bool) (changedFiles : List File)
    (globs : List String) (status : List Yaml) : Bool :=
  globs.any (fun glob =>
    changedFiles.any (fun changedFile =>
      matcher glob changedFile.filename && statusIncludes status changedFile.status))

/-- The label-selection loop of `run` (lines 32–38 of src/main.ts): push the
label of every rule whose `checkGlobs` is true, in map iteration order. -/
def selectLabels (matcher : String → String → Bool)
    (labelGlobs : List (String × (List String × List Yaml)))
    (changedFiles : List File) : List String :=
  labelGlobs.foldl
    (fun labels q => if checkGlobs matcher changedFiles q.2.1 q.2.2 then labels ++ [q.1] else labels)
    []

/-- A collaborator (GitHub client) call issued by `run`. -/
inductive Call where
  | listFiles : Nat → Call
  | getContents : String → Call
  | addLabels : Nat → List String → Call

/-- The observable outcome of one `run`: the collaborator calls in order, and
whether the run ended without `core.setFailed`. -/
structure RunResult where
  calls : List Call
  succeeded : Bool

/-- `run` (lines 12–47 of src/main.ts), as a function of the event context
and the collaborator's responses.  No pull-request number: log and return
(no calls, success).  Otherwise fetch the changed files, fetch and parse the
configuration (a parse error is caught and fails the run), select the labels,
and call `addLabels` exactly when the selection is non-empty. -/
def run (matcher : String → String → Bool) (configPath : String)
    (prNumber : Option Nat) (changedFiles : List File)
    (configObject : List (String × Yaml)) : RunResult :=
  match prNumber with
  | none => ⟨[], true⟩
  | some pr =>
    match getLabelGlobMapFromObject configObject with
    | Except.error _ => ⟨[Call.listFiles pr, Call.getContents configPath], false⟩
    | Except.ok labelGlobs =>
      let labels := selectLabels matcher labelGlobs changedFiles
      if labels.length > 0 then
        ⟨[Call.listFiles pr, Call.getContents configPath, Call.addLabels pr labels], true⟩
      else
        ⟨[Call.listFiles pr, Call.getContents configPath], true⟩

/-! ## Specification-side definitions

These express the spec's descriptions independently of the program's loops;
theorems below connect them to the embedded program. -/

/-- Is this value a YAML string? -/
def isStrB : Yaml → Bool
  | Yaml.str _ => true
  | _ => false

/-- The string elements of a sequence value, in order: per the spec these are
the glob patterns of the derived rule. -/
def seqGlobs (elems : List Yaml) : List String :=
  elems.filterMap (fun e => match e with | Yaml.str s => some s | _ => none)

/-- The status-filter replacement contributed by a sequence element, if any:
an element whose `"on"` property is a string contributes the one-element
list, one whose `"on"` property is an array contributes it verbatim. -/
def onUpdate (e : Yaml) : Option (List Yaml) :=
  match getOn e with
  | some (Yaml.str s) => some [Yaml.str s]
  | some (Yaml.arr a) => some a
  | _ => none

/-- Does the element send the parser's inner loop into its error branch? -/
def badElemB (e : Yaml) : Bool :=
  !(isStrB e || (onUpdate e).isSome)

/-- Does a label's value make the parser throw: a value that is neither a
string nor an array, or an array with a bad element? -/
def badValueB : Yaml → Bool
  | Yaml.str _ => false
  | Yaml.arr elems => elems.any badElemB
  | _ => true

/-- The amended malformedness condition: some label's value is neither a
string nor a sequence, or some sequence element is neither a string nor an
object whose `on` key holds a string or a sequence. -/
def malformedAmended (configObject : List (String × Yaml)) : Bool :=
  configObject.any (fun p => badValueB p.2)

/-- The claim's malformedness condition, following the spec's words: some
label's value is neither a string nor a sequence, or some sequence element is
neither a string nor an object whose `on` key holds a string or a sequence
*of strings*. -/
def malformedSpec (configObject : List (String × Yaml)) : Bool :=
  configObject.any (fun p =>
    match p.2 with
    | Yaml.str _ => false
    | Yaml.arr elems =>
        elems.any (fun e =>
          match e, getOn e with
          | Yaml.str _, _ => false
          | _, some (Yaml.str _) => false
          | _, some (Yaml.arr a) => !a.all isStrB
          | _, _ => true)
    | _ => true)

/-- Is this YAML value one of the three change-status strings? -/
def isAllowedStatus : Yaml → Bool
  | Yaml.str t => ["added", "modified", "removed"].contains t
  | _ => false

/-- The spec's rule-set invariant, §3: every rule has at least one glob, and
its status filter is a non-empty subset of {added, modified, removed}. -/
def ruleInvariantB (m : List (String × (List String × List Yaml))) : Bool :=
  m.all (fun q => !q.2.1.isEmpty && !q.2.2.isEmpty && q.2.2.all isAllowedStatus)

/-- A sequence element is benign for the invariant: when it contributes a
status filter, that filter is non-empty and holds only real statuses. -/
def okOnUpdate (e : Yaml) : Bool :=
  match onUpdate e with
  | none => true
  | some st => !st.isEmpty && st.all isAllowedStatus

/-- A label value that keeps the spec's invariant: a bare string, or a
sequence with at least one string element whose `on` entries all carry
non-empty lists of real statuses. -/
def wellFormedValue : Yaml → Bool
  | Yaml.arr elems => elems.any isStrB && elems.all okOnUpdate
  | _ => true

/-- The parser of the whole configuration entry by entry, without the `Map`
accumulator: the normalized rule list in configuration order. -/
def parseAll : List (String × Yaml) → Except String (List (String × (List String × List Yaml)))
  | [] => Except.ok []
  | (label, v) :: rest =>
    match parseLabelValue label v, parseAll rest with
    | Except.ok r, Except.ok m => Except.ok ((label, r) :: m)
    | Except.error e, _ => Except.error e
    | Except.ok _, Except.error e => Except.error e

/-- The normalization the parser applies to an `on` value: a string becomes
the one-element filter, an array is kept verbatim. -/
def onNorm : Yaml → List Yaml
  | Yaml.str s => [Yaml.str s]
  | Yaml.arr a => a
  | _ => []

/-- Is a collaborator call an `addLabels` call? -/
def isAddLabelsCall : Call → Bool
  | Call.addLabels _ _ => true
  | _ => false

/-- Is this value neither a YAML string nor a YAML sequence?  Such a value at
the top level of the configuration makes the parser throw the error that
names the label. -/
def notStrOrArrB : Yaml → Bool
  | Yaml.str _ => false
  | Yaml.arr _ => false
  | _ => true

/-- The string carried by a YAML string value. -/
def strOf : Yaml → Option String
  | Yaml.str s => some s
  | _ => none

/-! ## Lemmas about the rule evaluator -/

theorem statusIncludes_iff (status : List Yaml) (s : String) :
    statusIncludes status s = true ↔ Yaml.str s ∈ status := by
  simp only [statusIncludes, List.any_eq_true]
  constructor
  · rintro ⟨y, hy, h⟩
    cases y <;> simp_all
  · intro h
    exact ⟨Yaml.str s, h, by simp⟩

/-- C1: `checkGlobs` returns true iff some glob in the rule's glob list
matches some changed file's path while that file's change status is a member
of the rule's status filter; this holds for every glob matcher, hence in
particular for minimatch. -/
theorem checkGlobs_iff_exists (matcher : String → String → Bool) (changedFiles : List File)
    (globs : List String) (status : List Yaml) :
    checkGlobs matcher changedFiles globs status = true ↔
      ∃ g ∈ globs, ∃ f ∈ changedFiles,
        matcher g f.filename = true ∧ Yaml.str f.status ∈ status := by
  simp [checkGlobs, List.any_eq_true, Bool.and_eq_true, statusIncludes_iff]

theorem selectLabels_foldl (matcher : String → String → Bool) (changedFiles : List File) :
    ∀ (labelGlobs : List (String × (List String × List Yaml))) (acc : List String),
      labelGlobs.foldl
        (fun labels q =>
          if checkGlobs matcher changedFiles q.2.1 q.2.2 then labels ++ [q.1] else labels) acc =
      acc ++ (labelGlobs.filter
        (fun q => checkGlobs matcher changedFiles q.2.1 q.2.2)).map Prod.fst := by
  intro labelGlobs
  induction labelGlobs with
  | nil => intro acc; simp
  | cons q rest ih =>
    intro acc
    by_cases h : checkGlobs matcher changedFiles q.2.1 q.2.2 = true
    · simp [List.foldl_cons, h, ih]
    · simp only [Bool.not_eq_true] at h
      simp [List.foldl_cons, h, ih]

/-- The label-selection loop as a filter over the rule list. -/
theorem selectLabels_eq_filter (matcher : String → String → Bool)
    (labelGlobs : List (String × (List String × List Yaml))) (changedFiles : List File) :
    selectLabels matcher labelGlobs changedFiles =
      (labelGlobs.filter
        (fun q => checkGlobs matcher changedFiles q.2.1 q.2.2)).map Prod.fst := by
  simpa using selectLabels_foldl matcher changedFiles labelGlobs []

/-- C8: when the event context carries no pull-request number, `run` returns
successfully and issues no collaborator call at all. -/
theorem run_no_pr (matcher : String → String → Bool) (configPath : String)
    (changedFiles : List File) (configObject : List (String × Yaml)) :
    run matcher configPath none changedFiles configObject =
      { calls := [], succeeded := true } := rfl

/-- C7: across all runs, the `addLabels` calls of the trace are exactly one
call carrying the selected labels when that selection is non-empty, and none
otherwise (in particular none when the context has no pull request or the
configuration is malformed); no call removing labels exists. -/
theorem run_addLabels_trace (matcher : String → String → Bool) (configPath : String)
    (prNumber : Option Nat) (changedFiles : List File) (configObject : List (String × Yaml)) :
    (run matcher configPath prNumber changedFiles configObject).calls.filter isAddLabelsCall =
      match prNumber, getLabelGlobMapFromObject configObject with
      | none, _ => []
      | some _, Except.error _ => []
      | some pr, Except.ok labelGlobs =>
        if (selectLabels matcher labelGlobs changedFiles).isEmpty then []
        else [Call.addLabels pr (selectLabels matcher labelGlobs changedFiles)] := by
  cases prNumber with
  | none => rfl
  | some pr =>
    cases h : getLabelGlobMapFromObject configObject with
    | error e => simp [run, h, List.filter, isAddLabelsCall]
    | ok labelGlobs =>
      cases hL : selectLabels matcher labelGlobs changedFiles with
      | nil => simp [run, h, hL, List.filter, isAddLabelsCall]
      | cons a as => simp [run, h, hL, List.filter, isAddLabelsCall]

/-! ## Lemmas about the configuration parser -/

theorem seqGlobs_eq_filterMap (elems : List Yaml) : seqGlobs elems = elems.filterMap strOf := by
  induction elems with
  | nil => rfl
  | cons e rest ih =>
    cases e <;> simp [seqGlobs, strOf, List.filterMap_cons] at ih ⊢ <;> exact ih

theorem parseArrayElems_cons_str (s : String) (rest : List Yaml) (globs : List String)
    (status : List Yaml) :
    parseArrayElems (Yaml.str s :: rest) globs status =
      parseArrayElems rest (globs ++ [s]) status := rfl

theorem parseArrayElems_cons_upd (e : Yaml) (st : List Yaml) (h : onUpdate e = some st)
    (rest : List Yaml) (globs : List String) (status : List Yaml) :
    parseArrayElems (e :: rest) globs status = parseArrayElems rest globs st := by
  cases e with
  | obj kvs =>
    simp only [onUpdate] at h
    cases hg : getOn (Yaml.obj kvs) with
    | none => rw [hg] at h; simp at h
    | some v =>
      rw [hg] at h
      cases v with
      | str s => simp at h; subst h; simp [parseArrayElems, hg]
      | arr a => simp at h; subst h; simp [parseArrayElems, hg]
      | num n => simp at h
      | bool b => simp at h
      | null => simp at h
      | obj kvs2 => simp at h
  | str s => simp [onUpdate, getOn] at h
  | num n => simp [onUpdate, getOn] at h
  | bool b => simp [onUpdate, getOn] at h
  | null => simp [onUpdate, getOn] at h
  | arr a => simp [onUpdate, getOn] at h

theorem parseArrayElems_cons_bad (e : Yaml) (h : badElemB e = true)
    (rest : List Yaml) (globs : List String) (status : List Yaml) :
    parseArrayElems (e :: rest) globs status = Except.error "found unexpected ..." := by
  have hs : isStrB e = false := by
    cases hse : isStrB e
    · rfl
    · rw [badElemB, hse] at h; simp at h
  have hu : onUpdate e = none := by
    cases hue : onUpdate e with
    | none => rfl
    | some st => rw [badElemB, hue] at h; simp [isStrB] at h
  cases e with
  | str s => simp [isStrB] at hs
  | obj kvs =>
    simp only [onUpdate] at hu
    cases hg : getOn (Yaml.obj kvs) with
    | none => simp [parseArrayElems, hg]
    | some v =>
      rw [hg] at hu
      cases v with
      | str s => simp at hu
      | arr a => simp at hu
      | num n => simp [parseArrayElems, hg]
      | bool b => simp [parseArrayElems, hg]
      | null => simp [parseArrayElems, hg]
      | obj kvs2 => simp [parseArrayElems, hg]
  | num n => simp [parseArrayElems, getOn]
  | bool b => simp [parseArrayElems, getOn]
  | null => simp [parseArrayElems, getOn]
  | arr a => simp [parseArrayElems, getOn]

theorem getLastD_cons {α : Type} (a : α) (l : List α) :
    ∀ d, ((a :: l).getLast?).getD d = (l.getLast?).getD a := by
  induction l generalizing a with
  | nil => intro d; rfl
  | cons b l ih =>
    intro d
    rw [List.getLast?_cons_cons, ih b d, ih b a]

/-- What a successful inner-loop run returns: the accumulated globs followed
by the sequence's string elements, and the last `on` replacement (or the
incoming status when none occurs). -/
theorem parseArrayElems_ok_eq :
    ∀ (elems : List Yaml) (globs : List String) (status : List Yaml)
      (g : List String) (s : List Yaml),
      parseArrayElems elems globs status = Except.ok (g, s) →
      g = globs ++ seqGlobs elems ∧
        s = ((elems.filterMap onUpdate).getLast?).getD status := by
  intro elems
  induction elems with
  | nil =>
    intro globs status g s h
    simp [parseArrayElems] at h
    simp [seqGlobs, ← h.1, ← h.2]
  | cons e rest ih =>
    intro globs status g s h
    by_cases hstr : ∃ t, e = Yaml.str t
    · obtain ⟨t, rfl⟩ := hstr
      rw [parseArrayElems_cons_str] at h
      obtain ⟨h1, h2⟩ := ih _ _ _ _ h
      have hup : onUpdate (Yaml.str t) = none := by simp [onUpdate, getOn]
      have hso : strOf (Yaml.str t) = some t := rfl
      constructor
      · rw [h1, seqGlobs_eq_filterMap, seqGlobs_eq_filterMap,
          List.filterMap_cons_some hso, List.append_assoc]
        rfl
      · rw [h2, List.filterMap_cons_none hup]
    · have hsb : isStrB e = false := by
        cases e <;> simp [isStrB]
        exact hstr ⟨_, rfl⟩
      cases hupd : onUpdate e with
      | some st =>
        rw [parseArrayElems_cons_upd e st hupd] at h
        obtain ⟨h1, h2⟩ := ih _ _ _ _ h
        have hso : strOf e = none := by cases e <;> simp_all [strOf, isStrB]
        constructor
        · rw [h1, seqGlobs_eq_filterMap, seqGlobs_eq_filterMap,
            List.filterMap_cons_none hso]
        · rw [h2, List.filterMap_cons_some hupd, getLastD_cons]
      | none =>
        have hb : badElemB e = true := by simp [badElemB, hsb, hupd]
        rw [parseArrayElems_cons_bad e hb] at h
        simp at h

/-- The inner loop succeeds exactly when every element is a string or carries
a usable `on` entry. -/
theorem parseArrayElems_ok_iff :
    ∀ (elems : List Yaml) (globs : List String) (status : List Yaml),
      (∃ r, parseArrayElems elems globs status = Except.ok r) ↔
        ∀ e ∈ elems, badElemB e = false := by
  intro elems
  induction elems with
  | nil => intro globs status; simp [parseArrayElems]
  | cons e rest ih =>
    intro globs status
    by_cases hstr : ∃ t, e = Yaml.str t
    · obtain ⟨t, rfl⟩ := hstr
      rw [parseArrayElems_cons_str]
      simp [ih, List.forall_mem_cons, badElemB, isStrB]
    · have hsb : isStrB e = false := by
        cases e <;> simp [isStrB]
        exact hstr ⟨_, rfl⟩
      cases hupd : onUpdate e with
      | some st =>
        have hb : badElemB e = false := by simp [badElemB, hupd, isStrB, hsb]
        rw [parseArrayElems_cons_upd e st hupd]
        simp [ih, List.forall_mem_cons, hb]
      | none =>
        have hb : badElemB e = true := by simp [badElemB, hsb, hupd]
        rw [parseArrayElems_cons_bad e hb]
        constructor
        · rintro ⟨r, hr⟩; simp at hr
        · intro hall
          have := hall e (List.mem_cons_self e rest)
          rw [hb] at this
          cases this

theorem parseLabelValue_ok_iff (label : String) (v : Yaml) :
    (∃ r, parseLabelValue label v = Except.ok r) ↔ badValueB v = false := by
  cases v with
  | str s => simp [parseLabelValue, badValueB]
  | arr elems =>
    rw [show parseLabelValue label (Yaml.arr elems) = parseArrayElems elems [] ALL_STATUS from rfl,
      parseArrayElems_ok_iff]
    simp [badValueB, List.any_eq_false]
  | num n => simp [parseLabelValue, badValueB]
  | bool b => simp [parseLabelValue, badValueB]
  | null => simp [parseLabelValue, badValueB]
  | obj kvs => simp [parseLabelValue, badValueB]

theorem parseLabelValue_error_of_bad (label : String) (v : Yaml)
    (h : badValueB v = true) (hns : notStrOrArrB v = true) :
    parseLabelValue label v =
      Except.error ("found unexpected type for label " ++ label ++
        " (should be string or array of globs)") := by
  cases v with
  | str s => simp [notStrOrArrB] at hns
  | arr elems => simp [notStrOrArrB] at hns
  | num n => rfl
  | bool b => rfl
  | null => rfl
  | obj kvs => rfl

theorem getLabelGlobMapGo_ok_iff :
    ∀ (configObject : List (String × Yaml)) (acc : List (String × (List String × List Yaml))),
      (∃ m, getLabelGlobMapGo configObject acc = Except.ok m) ↔
        malformedAmended configObject = false := by
  intro configObject
  induction configObject with
  | nil => intro acc; simp [getLabelGlobMapGo, malformedAmended]
  | cons p rest ih =>
    intro acc
    obtain ⟨label, v⟩ := p
    cases h : parseLabelValue label v with
    | ok r =>
      have hv : badValueB v = false := (parseLabelValue_ok_iff label v).mp ⟨r, h⟩
      simp only [getLabelGlobMapGo, h, malformedAmended, List.any_cons, hv,
        Bool.false_or]
      exact ih (mapSet acc label r)
    | error e =>
      have hv : badValueB v = true := by
        cases hbv : badValueB v
        · obtain ⟨r, hr⟩ := (parseLabelValue_ok_iff label v).mpr hbv
          rw [h] at hr
          cases hr
        · rfl
      simp only [getLabelGlobMapGo, h, malformedAmended, List.any_cons, hv,
        Bool.true_or]
      constructor
      · rintro ⟨m, hm⟩; cases hm
      · intro hfalse; cases hfalse

theorem getLabelGlobMapGo_error_label :
    ∀ (configObject : List (String × Yaml)) (acc : List (String × (List String × List Yaml)))
      (label : String) (v : Yaml),
      configObject.find? (fun p => badValueB p.2) = some (label, v) →
      notStrOrArrB v = true →
      getLabelGlobMapGo configObject acc =
        Except.error ("found unexpected type for label " ++ label ++
          " (should be string or array of globs)") := by
  intro configObject
  induction configObject with
  | nil => intro acc label v h; simp at h
  | cons p rest ih =>
    intro acc label v h hns
    obtain ⟨l, w⟩ := p
    cases hb : badValueB w with
    | true =>
      rw [List.find?_cons_of_pos _ (by simpa using hb)] at h
      have h' : (l, w) = (label, v) := by injection h
      have hl : l = label := congrArg Prod.fst h'
      have hw : w = v := congrArg Prod.snd h'
      rw [← hw] at hns
      simp [getLabelGlobMapGo, hl, parseLabelValue_error_of_bad label w hb hns]
    | false =>
      rw [List.find?_cons_of_neg _ (by simp [hb])] at h
      obtain ⟨r, hr⟩ := (parseLabelValue_ok_iff l w).mpr hb
      simp only [getLabelGlobMapGo, hr]
      exact ih (mapSet acc l r) label v h hns

theorem mapSet_of_not_mem {α : Type} (m : List (String × α)) (k : String) (v : α)
    (h : ∀ q ∈ m, q.1 ≠ k) : mapSet m k v = m ++ [(k, v)] := by
  rw [mapSet, if_neg]
  simp only [List.any_eq_true, not_exists, not_and, Bool.not_eq_true]
  intro q hq
  simp [h q hq]

theorem mem_mapSet {α : Type} (m : List (String × α)) (k : String) (v : α)
    (q : String × α) (h : q ∈ mapSet m k v) : q ∈ m ∨ q = (k, v) := by
  rw [mapSet] at h
  by_cases hc : m.any (fun q => q.1 == k) = true
  · rw [if_pos hc] at h
    obtain ⟨p, hp, hq⟩ := List.mem_map.mp h
    by_cases hpk : (p.1 == k) = true
    · right; rw [if_pos hpk] at hq; exact hq.symm
    · left; rw [if_neg hpk] at hq; exact hq ▸ hp
  · rw [if_neg hc] at h
    rcases List.mem_append.mp h with hm | hm
    · exact Or.inl hm
    · exact Or.inr (List.mem_singleton.mp hm)

theorem getLabelGlobMapGo_ok_mem :
    ∀ (configObject : List (String × Yaml)) (acc m : List (String × (List String × List Yaml))),
      getLabelGlobMapGo configObject acc = Except.ok m →
      ∀ q ∈ m, q ∈ acc ∨
        ∃ v, (q.1, v) ∈ configObject ∧ parseLabelValue q.1 v = Except.ok q.2 := by
  intro configObject
  induction configObject with
  | nil =>
    intro acc m h q hq
    simp only [getLabelGlobMapGo, Except.ok.injEq] at h
    subst h
    exact Or.inl hq
  | cons p rest ih =>
    intro acc m h q hq
    obtain ⟨label, v⟩ := p
    cases hlv : parseLabelValue label v with
    | error e => simp [getLabelGlobMapGo, hlv] at h
    | ok r =>
      simp only [getLabelGlobMapGo, hlv] at h
      rcases ih (mapSet acc label r) m h q hq with hacc | ⟨w, hw1, hw2⟩
      · rcases mem_mapSet acc label r q hacc with hq2 | hq2
        · exact Or.inl hq2
        · right
          refine ⟨v, ?_, ?_⟩
          · rw [hq2]; exact List.mem_cons_self _ _
          · rw [hq2]; exact hlv
      · exact Or.inr ⟨w, List.mem_cons_of_mem _ hw1, hw2⟩

theorem getLabelGlobMapGo_eq_parseAll :
    ∀ (configObject : List (String × Yaml)) (acc : List (String × (List String × List Yaml))),
      (configObject.map Prod.fst).Nodup →
      (∀ q ∈ acc, ∀ p ∈ configObject, q.1 ≠ p.1) →
      getLabelGlobMapGo configObject acc =
        match parseAll configObject with
        | Except.ok tl => Except.ok (acc ++ tl)
        | Except.error e => Except.error e := by
  intro configObject
  induction configObject with
  | nil => intro acc _ _; simp [getLabelGlobMapGo, parseAll]
  | cons p rest ih =>
    intro acc hnd hdis
    obtain ⟨label, v⟩ := p
    cases hlv : parseLabelValue label v with
    | error e => simp [getLabelGlobMapGo, parseAll, hlv]
    | ok r =>
      have hset : mapSet acc label r = acc ++ [(label, r)] :=
        mapSet_of_not_mem acc label r
          (fun q hq => hdis q hq (label, v) (List.mem_cons_self _ _))
      rw [List.map_cons] at hnd
      obtain ⟨hhead, hnd'⟩ := List.nodup_cons.mp hnd
      have hdis' : ∀ q ∈ acc ++ [(label, r)], ∀ p ∈ rest, q.1 ≠ p.1 := by
        intro q hq p hp
        rcases List.mem_append.mp hq with hq2 | hq2
        · exact hdis q hq2 p (List.mem_cons_of_mem _ hp)
        · rw [List.mem_singleton.mp hq2]
          intro hcontra
          exact hhead (hcontra ▸ List.mem_map_of_mem Prod.fst hp)
      simp only [getLabelGlobMapGo, hlv, hset]
      rw [ih (acc ++ [(label, r)]) hnd' hdis']
      cases hall : parseAll rest with
      | ok tl => simp [parseAll, hlv, hall]
      | error e => simp [parseAll, hlv, hall]

theorem parseAll_lookup :
    ∀ (configObject : List (String × Yaml)) (tl : List (String × (List String × List Yaml)))
      (label : String) (v : Yaml),
      (configObject.map Prod.fst).Nodup →
      (label, v) ∈ configObject →
      parseAll configObject = Except.ok tl →
      ∃ r, parseLabelValue label v = Except.ok r ∧ tl.lookup label = some r := by
  intro configObject
  induction configObject with
  | nil => intro tl label v _ hmem; simp at hmem
  | cons p rest ih =>
    intro tl label v hnd hmem hall
    obtain ⟨l, w⟩ := p
    cases hlv : parseLabelValue l w with
    | error e => simp [parseAll, hlv] at hall
    | ok r =>
      cases hrest : parseAll rest with
      | error e => simp [parseAll, hlv, hrest] at hall
      | ok tl' =>
        have htl : tl = (l, r) :: tl' := by
          simp only [parseAll, hlv, hrest, Except.ok.injEq] at hall
          exact hall.symm
        subst htl
        rw [List.map_cons] at hnd
        obtain ⟨hhead, hnd'⟩ := List.nodup_cons.mp hnd
        rcases List.mem_cons.mp hmem with heq | hmem'
        · have hl : label = l := congrArg Prod.fst heq
          have hv : v = w := congrArg Prod.snd heq
          subst hl; subst hv
          exact ⟨r, hlv, by simp [List.lookup]⟩
        · have hne : (label == l) = false := by
            simp only [beq_eq_false_iff_ne, ne_eq]
            intro hcontra
            have hmm : label ∈ List.map Prod.fst rest := List.mem_map_of_mem Prod.fst hmem'
            rw [hcontra] at hmm
            exact hhead hmm
          obtain ⟨r', h1, h2⟩ := ih tl' label v hnd' hmem' hrest
          exact ⟨r', h1, by simp [List.lookup, hne, h2]⟩

theorem parseLabelValue_invariant (label : String) (v : Yaml)
    (r : List String × List Yaml) (hwf : wellFormedValue v = true)
    (hok : parseLabelValue label v = Except.ok r) :
    (!r.1.isEmpty && !r.2.isEmpty && r.2.all isAllowedStatus) = true := by
  cases v with
  | str s =>
    simp only [parseLabelValue, Except.ok.injEq] at hok
    rw [← hok]
    rfl
  | arr elems =>
    obtain ⟨g, s⟩ := r
    obtain ⟨hg, hs⟩ := parseArrayElems_ok_eq elems [] ALL_STATUS g s hok
    rw [wellFormedValue, Bool.and_eq_true] at hwf
    obtain ⟨hstr, hups⟩ := hwf
    have hgne : g.isEmpty = false := by
      obtain ⟨e, he, hse⟩ := List.any_eq_true.mp hstr
      obtain ⟨t, rfl⟩ : ∃ t, e = Yaml.str t := by
        cases e <;> simp [isStrB] at hse
        exact ⟨_, rfl⟩
      have : t ∈ seqGlobs elems := by
        rw [seqGlobs_eq_filterMap]
        exact List.mem_filterMap.mpr ⟨Yaml.str t, he, rfl⟩
      rw [hg]
      simp only [List.nil_append]
      cases hgl : seqGlobs elems with
      | nil => rw [hgl] at this; cases this
      | cons a as => rfl
    have hsinv : (!s.isEmpty && s.all isAllowedStatus) = true := by
      cases hl : (elems.filterMap onUpdate).getLast? with
      | none => rw [hs, hl]; rfl
      | some st =>
        have hmem : st ∈ elems.filterMap onUpdate :=
          List.mem_of_mem_getLast? (by simp [hl])
        obtain ⟨e, he, hup⟩ := List.mem_filterMap.mp hmem
        have := List.all_eq_true.mp hups e he
        rw [okOnUpdate, hup] at this
        rw [hs, hl]
        exact this
    simp only [Bool.and_eq_true] at hsinv ⊢
    exact ⟨⟨by simp [hgne], hsinv.1⟩, hsinv.2⟩
  | num n => simp [parseLabelValue] at hok
  | bool b => simp [parseLabelValue] at hok
  | null => simp [parseLabelValue] at hok
  | obj kvs => simp [parseLabelValue] at hok

/-! ## The claims -/

/-- C2 (amended): when every sequence value of the configuration has at
least one string element and every `on` entry carries a non-empty list of
the three real statuses, every rule of the accepted rule set has at least
one glob pattern and a non-empty status filter that is a subset of
{added, modified, removed}. -/
theorem ruleSet_invariant (configObject : List (String × Yaml))
    (m : List (String × (List String × List Yaml)))
    (hwf : configObject.all (fun p => wellFormedValue p.2) = true)
    (hok : getLabelGlobMapFromObject configObject = Except.ok m) :
    ruleInvariantB m = true := by
  rw [ruleInvariantB, List.all_eq_true]
  intro q hq
  rcases getLabelGlobMapGo_ok_mem configObject [] m hok q hq with hfalse | ⟨v, hmem, hpv⟩
  · cases hfalse
  · exact parseLabelValue_invariant q.1 v q.2
      (List.all_eq_true.mp hwf (q.1, v) hmem) hpv

/-- C2, counterexample to the claim as stated: the parser accepts the
configuration `{x: [{on: []}]}` and produces a rule with no glob pattern and
an empty status filter, violating the claimed invariant. -/
theorem ruleSet_invariant_counterexample :
    getLabelGlobMapFromObject [("x", Yaml.arr [Yaml.obj [("on", Yaml.arr [])]])] =
      Except.ok [("x", ([], []))] ∧
    ruleInvariantB [("x", ([], []))] = false :=
  ⟨rfl, rfl⟩

/-- C2, witness: a well-formed two-label configuration is accepted and its
rule set satisfies the invariant. -/
theorem ruleSet_invariant_witness :
    ruleInvariantB [("docs", (["*.md"], ALL_STATUS)),
      ("rm", (["src"], [Yaml.str "removed"]))] = true :=
  ruleSet_invariant
    [("docs", Yaml.str "*.md"),
     ("rm", Yaml.arr [Yaml.str "src", Yaml.obj [("on", Yaml.arr [Yaml.str "removed"])]])]
    [("docs", (["*.md"], ALL_STATUS)), ("rm", (["src"], [Yaml.str "removed"]))]
    rfl rfl

/-- C3 (amended): the parser signals an error exactly when some label's
value is neither a string nor a sequence, or some sequence element is
neither a string nor an object whose `on` key holds a string or a sequence
(elements of that sequence are not validated); when the first offending
entry is a label whose value is neither a string nor a sequence, the error
message identifies that label. -/
theorem getLabelGlobMap_error_characterization (configObject : List (String × Yaml)) :
    ((∃ m, getLabelGlobMapFromObject configObject = Except.ok m) ↔
      malformedAmended configObject = false)
    ∧ (∀ label v,
        configObject.find? (fun p => badValueB p.2) = some (label, v) →
        notStrOrArrB v = true →
        getLabelGlobMapFromObject configObject =
          Except.error ("found unexpected type for label " ++ label ++
            " (should be string or array of globs)")) :=
  ⟨getLabelGlobMapGo_ok_iff configObject [],
   fun label v h1 h2 => getLabelGlobMapGo_error_label configObject [] label v h1 h2⟩

/-- C3, counterexample to the claim as stated: the claim demands an error
when an `on` key holds a sequence that is not a sequence of strings, but the
parser accepts `{l: [{on: [1]}]}` and stores the number verbatim. -/
theorem getLabelGlobMap_error_counterexample :
    malformedSpec [("l", Yaml.arr [Yaml.obj [("on", Yaml.arr [Yaml.num 1])]])] = true ∧
    getLabelGlobMapFromObject [("l", Yaml.arr [Yaml.obj [("on", Yaml.arr [Yaml.num 1])]])] =
      Except.ok [("l", ([], [Yaml.num 1]))] :=
  ⟨rfl, rfl⟩

/-- C4: a label whose configured value is a bare string `s` yields the rule
with glob list exactly `[s]` and the full status filter. -/
theorem bareString_rule (configObject : List (String × Yaml)) (label s : String)
    (m : List (String × (List String × List Yaml)))
    (hnd : (configObject.map Prod.fst).Nodup)
    (hmem : (label, Yaml.str s) ∈ configObject)
    (hok : getLabelGlobMapFromObject configObject = Except.ok m) :
    m.lookup label = some ([s], ALL_STATUS) := by
  rw [getLabelGlobMapFromObject,
    getLabelGlobMapGo_eq_parseAll configObject [] hnd (by simp)] at hok
  cases hall : parseAll configObject with
  | error e => rw [hall] at hok; cases hok
  | ok tl =>
    rw [hall] at hok
    simp only [List.nil_append, Except.ok.injEq] at hok
    subst hok
    obtain ⟨r, h1, h2⟩ := parseAll_lookup configObject tl label (Yaml.str s) hnd hmem hall
    simp only [parseLabelValue, Except.ok.injEq] at h1
    rw [← h1] at h2
    exact h2

/-- C4, witness: the one-label configuration `{docs: "*.md"}`. -/
theorem bareString_rule_witness :
    List.lookup "docs" [("docs", (["*.md"], ALL_STATUS))] = some (["*.md"], ALL_STATUS) :=
  bareString_rule [("docs", Yaml.str "*.md")] "docs" "*.md"
    [("docs", (["*.md"], ALL_STATUS))] (by simp) (List.mem_singleton.mpr rfl) rfl

/-- C5: a label whose configured value is a sequence yields the rule whose
glob list is the sequence's string elements in order, and whose status
filter is the value of the last `on` entry (normalized: a string becomes a
one-element filter, a sequence is kept verbatim), or the default of all
three statuses when no `on` entry occurs. -/
theorem sequence_rule (configObject : List (String × Yaml)) (label : String)
    (elems : List Yaml) (m : List (String × (List String × List Yaml)))
    (hnd : (configObject.map Prod.fst).Nodup)
    (hmem : (label, Yaml.arr elems) ∈ configObject)
    (hok : getLabelGlobMapFromObject configObject = Except.ok m) :
    m.lookup label =
      some (seqGlobs elems, ((elems.filterMap onUpdate).getLast?).getD ALL_STATUS) := by
  rw [getLabelGlobMapFromObject,
    getLabelGlobMapGo_eq_parseAll configObject [] hnd (by simp)] at hok
  cases hall : parseAll configObject with
  | error e => rw [hall] at hok; cases hok
  | ok tl =>
    rw [hall] at hok
    simp only [List.nil_append, Except.ok.injEq] at hok
    subst hok
    obtain ⟨r, h1, h2⟩ := parseAll_lookup configObject tl label (Yaml.arr elems) hnd hmem hall
    obtain ⟨g, s⟩ := r
    obtain ⟨hg, hs⟩ :=
      parseArrayElems_ok_eq elems [] ALL_STATUS g s h1
    rw [h2, hg, hs]
    simp

/-- C5, witness: in `{x: ["a", {on: "removed"}, {on: "added"}]}` the glob
list is `["a"]` and the last `on` entry wins. -/
theorem sequence_rule_witness :
    List.lookup "x" [("x", (["a"], [Yaml.str "added"]))] =
      some (["a"], [Yaml.str "added"]) :=
  sequence_rule
    [("x", Yaml.arr [Yaml.str "a", Yaml.obj [("on", Yaml.str "removed")],
      Yaml.obj [("on", Yaml.str "added")]])]
    "x"
    [Yaml.str "a", Yaml.obj [("on", Yaml.str "removed")], Yaml.obj [("on", Yaml.str "added")]]
    [("x", (["a"], [Yaml.str "added"]))]
    (by simp) (List.mem_singleton.mpr rfl) rfl

/-- C9: a sequence containing only `on` objects is accepted and yields a
rule with an empty glob list, and `checkGlobs` on an empty glob list is
false for every changed-file list, so the label is never selected. -/
theorem onOnly_rule_never_selected (label : String) (elems : List Yaml)
    (h : ∀ e ∈ elems, (onUpdate e).isSome = true) :
    ∃ status,
      getLabelGlobMapFromObject [(label, Yaml.arr elems)] =
        Except.ok [(label, ([], status))] ∧
      ∀ (matcher : String → String → Bool) (changedFiles : List File),
        checkGlobs matcher changedFiles [] status = false := by
  have hgood : ∀ e ∈ elems, badElemB e = false := by
    intro e he
    simp [badElemB, h e he]
  obtain ⟨r, hr⟩ := (parseArrayElems_ok_iff elems [] ALL_STATUS).mpr hgood
  obtain ⟨g, s⟩ := r
  obtain ⟨hg, hs⟩ := parseArrayElems_ok_eq elems [] ALL_STATUS g s hr
  have hstr : ∀ e ∈ elems, strOf e = none := by
    intro e he
    have h2 := h e he
    cases e <;> simp_all [onUpdate, getOn, strOf]
  have hgnil : g = [] := by
    rw [hg, seqGlobs_eq_filterMap, List.nil_append]
    exact List.filterMap_eq_nil_iff.mpr hstr
  subst hgnil
  refine ⟨s, ?_, ?_⟩
  · rw [getLabelGlobMapFromObject]
    simp [getLabelGlobMapGo, parseLabelValue, hr, mapSet]
  · intro matcher changedFiles
    rfl

/-- C9, witness: the configuration `{x: [{on: removed}]}`. -/
theorem onOnly_rule_never_selected_witness :
    ∃ status,
      getLabelGlobMapFromObject [("x", Yaml.arr [Yaml.obj [("on", Yaml.str "removed")]])] =
        Except.ok [("x", ([], status))] ∧
      ∀ (matcher : String → String → Bool) (changedFiles : List File),
        checkGlobs matcher changedFiles [] status = false :=
  onOnly_rule_never_selected "x" [Yaml.obj [("on", Yaml.str "removed")]] (by decide)

/-- C10: `on` values are stored verbatim without validation: any string (of
any content) and any array (of any elements, including the empty array) is
accepted, a string becoming the one-element filter and an array kept as is;
and a rule whose status filter is empty evaluates to false on every
changed-file list. -/
theorem on_values_unvalidated (label : String) (gs : List String) (v : Yaml)
    (h : notStrOrArrB v = false) :
    getLabelGlobMapFromObject
        [(label, Yaml.arr (gs.map Yaml.str ++ [Yaml.obj [("on", v)]]))] =
      Except.ok [(label, (gs, onNorm v))] ∧
    (∀ (matcher : String → String → Bool) (changedFiles : List File) (globs : List String),
      checkGlobs matcher changedFiles globs [] = false) := by
  constructor
  · have hstep : ∀ (gs' : List String) (globs : List String) (status : List Yaml),
        parseArrayElems (gs'.map Yaml.str ++ [Yaml.obj [("on", v)]]) globs status =
          Except.ok (globs ++ gs', onNorm v) := by
      intro gs'
      induction gs' with
      | nil =>
        intro globs status
        simp only [List.map_nil, List.nil_append]
        cases v with
        | str s =>
          rw [parseArrayElems_cons_upd (Yaml.obj [("on", Yaml.str s)]) [Yaml.str s] rfl]
          simp [parseArrayElems, onNorm]
        | arr a =>
          rw [parseArrayElems_cons_upd (Yaml.obj [("on", Yaml.arr a)]) a rfl]
          simp [parseArrayElems, onNorm]
        | num n => simp [notStrOrArrB] at h
        | bool b => simp [notStrOrArrB] at h
        | null => simp [notStrOrArrB] at h
        | obj kvs => simp [notStrOrArrB] at h
      | cons t ts ih =>
        intro globs status
        simp only [List.map_cons, List.cons_append]
        rw [parseArrayElems_cons_str, ih]
        simp
    rw [getLabelGlobMapFromObject]
    have hsg := hstep gs [] ALL_STATUS
    simp only [List.nil_append] at hsg
    simp [getLabelGlobMapGo, parseLabelValue, hsg, mapSet]
  · intro matcher changedFiles globs
    simp [checkGlobs, statusIncludes]

/-- C10, witness: `{x: ["a", {on: []}]}` is accepted with the empty status
filter stored verbatim, and such a rule matches nothing. -/
theorem on_values_unvalidated_witness :
    getLabelGlobMapFromObject [("x", Yaml.arr [Yaml.str "a", Yaml.obj [("on", Yaml.arr [])]])] =
      Except.ok [("x", (["a"], []))] ∧
    (∀ (matcher : String → String → Bool) (changedFiles : List File) (globs : List String),
      checkGlobs matcher changedFiles globs [] = false) :=
  on_values_unvalidated "x" ["a"] (Yaml.arr []) rfl

theorem parseAll_keys :
    ∀ (configObject : List (String × Yaml)) (tl : List (String × (List String × List Yaml))),
      parseAll configObject = Except.ok tl → tl.map Prod.fst = configObject.map Prod.fst := by
  intro configObject
  induction configObject with
  | nil => intro tl h; simp only [parseAll, Except.ok.injEq] at h; rw [← h]; rfl
  | cons p rest ih =>
    intro tl h
    obtain ⟨l, w⟩ := p
    cases hlv : parseLabelValue l w with
    | error e => simp [parseAll, hlv] at h
    | ok r =>
      cases hrest : parseAll rest with
      | error e => simp [parseAll, hlv, hrest] at h
      | ok tl' =>
        simp only [parseAll, hlv, hrest, Except.ok.injEq] at h
        rw [← h]
        simp [ih tl' hrest]

/-- C6: the label-selection loop returns exactly the labels of the rules
whose evaluation is true, in the rule set's iteration order; and (for a
configuration without duplicate labels) the rule set's iteration order is
the configuration's insertion order. -/
theorem selectLabels_spec (matcher : String → String → Bool)
    (labelGlobs : List (String × (List String × List Yaml))) (changedFiles : List File) :
    (selectLabels matcher labelGlobs changedFiles =
      (labelGlobs.filter
        (fun q => checkGlobs matcher changedFiles q.2.1 q.2.2)).map Prod.fst)
    ∧ (∀ configObject : List (String × Yaml),
        (configObject.map Prod.fst).Nodup →
        getLabelGlobMapFromObject configObject = Except.ok labelGlobs →
        labelGlobs.map Prod.fst = configObject.map Prod.fst) := by
  constructor
  · simpa using selectLabels_foldl matcher changedFiles labelGlobs []
  · intro configObject hnd hok
    rw [getLabelGlobMapFromObject,
      getLabelGlobMapGo_eq_parseAll configObject [] hnd (by simp)] at hok
    cases hall : parseAll configObject with
    | error e => rw [hall] at hok; cases hok
    | ok tl =>
      rw [hall] at hok
      simp only [List.nil_append, Except.ok.injEq] at hok
      subst hok
      exact parseAll_keys configObject tl hall
